import Mathlib

/-!
Verification of the MIRI LRS spectral-extraction core
(`notebooks/MIRI_LRS_spectral_extraction/miri_lrs_spectral_extraction.ipynb`).

Images are embedded as functions `Fin (m+1) → Fin n → ℚ`: axis 0 is the
cross-dispersion (spatial) axis, always nonempty, axis 1 is the dispersion
axis.  Real-valued pixel data is modelled by exact rationals.

The PSF-weight normalization and the PSF-weighted extraction are embedded
from the notebook cells that compute `psf_weightimage` and
`ext1d_psfweight`.  The boxcar machinery (`get_boxcar_weights`,
`ap_weight_images`, `extract_1dspec`) lives in the `spextract` module,
which is imported by the notebook but absent from the source tree; those
definitions are modelled from the spec and marked as such.
-/

variable {m n : ℕ}

/-- Embedded from the notebook cell building the PSF reference:
`psf_weightimage = lrspsf * wimage_scaledboxcar` (element-wise product of
the raw PSF observation with the masking weight image). -/
def psf_weightimage (lrspsf wimage : Fin (m + 1) → Fin n → ℚ) :
    Fin (m + 1) → Fin n → ℚ :=
  fun p j => lrspsf p j * wimage p j

/-- Embedded from the notebook: `max_psf = np.max(psf_weightimage, axis=0)`,
the per-column peak over the spatial axis. -/
def max_psf (img : Fin (m + 1) → Fin n → ℚ) (j : Fin n) : ℚ :=
  Finset.univ.sup' Finset.univ_nonempty (fun p => img p j)

/-- Embedded from the notebook:
`div_image = np.tile(max_psf, ...); div_image[div_image == 0.0] = 1.0` —
the per-column divisor, with zero peaks replaced by 1 to avoid divide by
zero.  The tiled image is constant along the spatial axis, so it is a
function of the column only. -/
def div_image (img : Fin (m + 1) → Fin n → ℚ) (j : Fin n) : ℚ :=
  if max_psf img j = 0 then 1 else max_psf img j

/-- Embedded from the notebook: `psf_weightimage /= div_image`, the
normalization step applied to an already-masked PSF image. -/
def normalizeStep (img : Fin (m + 1) → Fin n → ℚ) :
    Fin (m + 1) → Fin n → ℚ :=
  fun p j => img p j / div_image img j

/-- The full PSF Weight Normalizer of spec section 4.4: mask the raw PSF
reference with the weight image, then divide each column by its spatial
peak (guarded against zero peaks).  Composition of the notebook cells
embedded above. -/
def normalize_psf_weights (lrspsf wimage : Fin (m + 1) → Fin n → ℚ) :
    Fin (m + 1) → Fin n → ℚ :=
  normalizeStep (psf_weightimage lrspsf wimage)

/- ------------------------------------------------------------------
Aperture Mask Builder, Background Estimator and Spectral Reducer.
These live in the `spextract` module, imported by the notebook but not
present in the source tree, so they are modelled from the spec.
------------------------------------------------------------------- -/

/-- Modelled from the spec: the partial-pixel weighting at the heart of
`get_boxcar_weights` (spextract, missing from the source tree).  Spec
section 4.1 step 2 / section 9: the weight of spatial pixel `p` is the
fractional overlap of the unit pixel interval `[p-1/2, p+1/2]` with the
aperture interval `[lo, hi]`, clipped to `[0, 1]`. -/
def intervalWeight (lo hi : ℚ) (p : ℕ) : ℚ :=
  min 1 (max 0 (min hi ((p : ℚ) + 1 / 2) - max lo ((p : ℚ) - 1 / 2)))

/-- Modelled from the spec: `get_boxcar_weights` (spextract, missing from
the source tree) — the weight of pixel `p` for an aperture centred at
`center` with half-width `hwidth`. -/
def get_boxcar_weights (center hwidth : ℚ) (p : ℕ) : ℚ :=
  intervalWeight (center - hwidth) (center + hwidth) p

/-- Modelled from the spec: the effective half-width for a column, spec
section 4.1 step 1 — `width/2` without wavelength scaling, otherwise
`(width/2) * (wavelength / wavescale)` with the wavescale value itself as
the reference wavelength. -/
def halfWidth (width : ℚ) (wavescale : Option ℚ) (wave : ℚ) : ℚ :=
  match wavescale with
  | none => width / 2
  | some ws => width / 2 * (wave / ws)

/-- Modelled from the spec: the signal weight image produced by
`ap_weight_images` (spextract, missing from the source tree), spec
section 4.1 steps 1-2. -/
def signal_weights (center width : ℚ) (waves : Fin n → ℚ)
    (wavescale : Option ℚ) : Fin (m + 1) → Fin n → ℚ :=
  fun p j => get_boxcar_weights center (halfWidth width wavescale (waves j)) p

/-- Modelled from the spec: the unnormalized background weight column,
spec section 4.1 step 3 — two symmetric bands
`[center - bkg_offset - bkg_width, center - bkg_offset]` and
`[center + bkg_offset, center + bkg_offset + bkg_width]`, each with
fractional-overlap weighting, summed. -/
def bkg_raw (center bkgOffset bkgWidth : ℚ) :
    Fin (m + 1) → Fin n → ℚ :=
  fun p _ =>
    intervalWeight (center - bkgOffset - bkgWidth) (center - bkgOffset) p +
      intervalWeight (center + bkgOffset) (center + bkgOffset + bkgWidth) p

/-- Modelled from the spec: the normalized background weight image, spec
section 4.1 step 4 — each column is divided by its sum so the weights sum
to 1, unless the column sum is zero, in which case it stays zero. -/
def bkg_weights (center bkgOffset bkgWidth : ℚ) :
    Fin (m + 1) → Fin n → ℚ :=
  fun p j =>
    if (∑ q : Fin (m + 1), bkg_raw center bkgOffset bkgWidth q j : ℚ) = 0 then
      bkg_raw center bkgOffset bkgWidth p j
    else
      bkg_raw center bkgOffset bkgWidth p j /
        ∑ q : Fin (m + 1), bkg_raw center bkgOffset bkgWidth q j

/-- Modelled from the spec: `ap_weight_images` (spextract, missing from
the source tree) — returns the pair (signal weight image, background
weight image).  Background weights are produced only when both
`bkg_offset` and `bkg_width` are supplied and `bkg_width > 0`
(spec sections 4.1 step 3 and 7: a degenerate band is treated as
"no background region"). -/
def ap_weight_images (center width : ℚ) (bkgOffset bkgWidth : Option ℚ)
    (waves : Fin n → ℚ) (wavescale : Option ℚ) :
    (Fin (m + 1) → Fin n → ℚ) × (Fin (m + 1) → Fin n → ℚ) :=
  (signal_weights center width waves wavescale,
    match bkgOffset, bkgWidth with
    | some o, some w => if 0 < w then bkg_weights center o w else fun _ _ => 0
    | _, _ => fun _ _ => 0)

/-- Modelled from the spec: the Background Estimator, spec section 4.2 —
`bkg[j] = sum_p(data[p,j] * bkg_weight[p,j])`. -/
def bkg_level (image bkgw : Fin (m + 1) → Fin n → ℚ) (j : Fin n) : ℚ :=
  ∑ p, image p j * bkgw p j

/-- Modelled from the spec: `extract_1dspec` (spextract, missing from the
source tree) — the Spectral Reducer, spec sections 4.3 and 6.  Builds the
weight images, estimates the background, subtracts it to form the
corrected image, and returns (wavelengths, flux, corrected image) with
`flux[j] = sum_p(corrected[p,j] * signal_weights[p,j])` and the
wavelengths passed through unchanged. -/
def extract_1dspec (image : Fin (m + 1) → Fin n → ℚ) (waves : Fin n → ℚ)
    (center width : ℚ) (bkgOffset bkgWidth wavescale : Option ℚ) :
    (Fin n → ℚ) × (Fin n → ℚ) × (Fin (m + 1) → Fin n → ℚ) :=
  (waves,
    fun j => ∑ p,
      (image p j -
          bkg_level image
            (ap_weight_images center width bkgOffset bkgWidth waves wavescale).2 j) *
        (ap_weight_images center width bkgOffset bkgWidth waves wavescale).1 p j,
    fun p j =>
      image p j -
        bkg_level image
          (ap_weight_images center width bkgOffset bkgWidth waves wavescale).2 j)

/-- Embedded from the notebook cell of the PSF-weighted path:
`ext1d_psfweight = np.sum(sboxcar_bkgsub_image * psf_weightimage, axis=0)` —
the weighted reduction of the background-subtracted image by the
normalized PSF weight image. -/
def ext1d_psfweight (corrected psfw : Fin (m + 1) → Fin n → ℚ)
    (j : Fin n) : ℚ :=
  ∑ p, corrected p j * psfw p j

/-- Embedded from the notebook cell of the PSF-weighted path:
`ext1d_psfweight *= 1e6 * s2d.meta.photometry.pixelarea_steradians` — the
photometric unit conversion applied by the caller after the weighted sum. -/
def ext1d_psfweight_cal (corrected psfw : Fin (m + 1) → Fin n → ℚ)
    (pixelarea : ℚ) (j : Fin n) : ℚ :=
  ext1d_psfweight corrected psfw j * (1000000 * pixelarea)

/- ------------------------------------------------------------------
Concrete inputs used by witnesses and counterexamples.
------------------------------------------------------------------- -/

/-- Two-pixel column holding -1 and 0: its peak is 0 while the column is
not identically zero. -/
def psfNegPeakZero : Fin 2 → Fin 1 → ℚ :=
  fun p _ => if p = 0 then -1 else 0

/-- Two-pixel column holding -2 and -1: a column with strictly negative
peak. -/
def psfAllNeg : Fin 2 → Fin 1 → ℚ :=
  fun p _ => if p = 0 then -2 else -1

/-- A mask of ones (every pixel fully included). -/
def maskOnes : Fin 2 → Fin 1 → ℚ := fun _ _ => 1

/-- A masked PSF image with an all-negative column, input of the
idempotence counterexample. -/
def imgAllNeg : Fin 2 → Fin 1 → ℚ :=
  fun p _ => if p = 0 then -2 else -1

/-- A nonnegative masked PSF image with a nonconstant column. -/
def imgNonneg : Fin 2 → Fin 1 → ℚ :=
  fun p _ => if p = 0 then 0 else 2

/-- A small PSF reference with positive peak 2 in its single column. -/
def psfPos : Fin 2 → Fin 1 → ℚ :=
  fun p _ => if p = 0 then 2 else 1

/-- The all-zero reference image on the smallest shape. -/
def psfZero : Fin 1 → Fin 1 → ℚ := fun _ _ => 0

/-- The all-ones mask on the smallest shape. -/
def maskOnesSmall : Fin 1 → Fin 1 → ℚ := fun _ _ => 1

/-- The all-zero mask. -/
def maskZeros : Fin 2 → Fin 1 → ℚ := fun _ _ => 0

/-- A constant wavelength map on a single column. -/
def wavesConst : Fin 1 → ℚ := fun _ => 10

/-- The identity-like wavelength map on two columns. -/
def wavesId : Fin 2 → ℚ := fun j => (j : ℚ)

/-- Interval clamp used to telescope fractional-overlap sums. -/
def clampTo (lo hi x : ℚ) : ℚ := max lo (min hi x)

/- ------------------------------------------------------------------
Helper lemmas.
------------------------------------------------------------------- -/

theorem le_max_psf (img : Fin (m + 1) → Fin n → ℚ) (p : Fin (m + 1))
    (j : Fin n) : img p j ≤ max_psf img j :=
  Finset.le_sup' (fun q => img q j) (Finset.mem_univ p)

theorem max_psf_exists (img : Fin (m + 1) → Fin n → ℚ) (j : Fin n) :
    ∃ p, img p j = max_psf img j := by
  obtain ⟨p, -, hp⟩ :=
    Finset.exists_mem_eq_sup' (Finset.univ_nonempty (α := Fin (m + 1)))
      (fun q => img q j)
  exact ⟨p, hp.symm⟩

theorem max_psf_of_col_zero (img : Fin (m + 1) → Fin n → ℚ) (j : Fin n)
    (h : ∀ p, img p j = 0) : max_psf img j = 0 :=
  Finset.sup'_eq_of_forall _ _ (fun p _ => h p)

theorem div_image_ne_zero (img : Fin (m + 1) → Fin n → ℚ) (j : Fin n) :
    div_image img j ≠ 0 := by
  unfold div_image
  split_ifs with h
  · exact one_ne_zero
  · exact h

/-- In a column with positive peak, the normalization step rescales the
peak to exactly 1. -/
theorem max_psf_normalizeStep (img : Fin (m + 1) → Fin n → ℚ) (j : Fin n)
    (hs : 0 < max_psf img j) : max_psf (normalizeStep img) j = 1 := by
  obtain ⟨p0, hp0⟩ := max_psf_exists img j
  have hdiv : div_image img j = max_psf img j := by
    unfold div_image; rw [if_neg hs.ne']
  apply le_antisymm
  · apply Finset.sup'_le
    intro p _
    show img p j / div_image img j ≤ 1
    rw [hdiv, div_le_one hs]
    exact le_max_psf img p j
  · have h1 : normalizeStep img p0 j = 1 := by
      show img p0 j / div_image img j = 1
      rw [hdiv, hp0, div_self hs.ne']
    calc (1 : ℚ) = normalizeStep img p0 j := h1.symm
    _ ≤ max_psf (normalizeStep img) j := le_max_psf _ p0 j

theorem intervalWeight_nonneg (lo hi : ℚ) (p : ℕ) :
    0 ≤ intervalWeight lo hi p :=
  le_min (by norm_num) (le_max_left 0 _)

/-- The clipped fractional overlap of a unit pixel with `[lo, hi]` is the
difference of the clamps of the pixel edges, provided `lo ≤ hi`. -/
theorem intervalWeight_eq_clamp (lo hi : ℚ) (p : ℕ) (h : lo ≤ hi) :
    intervalWeight lo hi p
      = clampTo lo hi ((p : ℚ) + 1 / 2) - clampTo lo hi ((p : ℚ) - 1 / 2) := by
  have hab : ((p : ℚ) - 1 / 2) + 1 = (p : ℚ) + 1 / 2 := by ring
  unfold intervalWeight clampTo
  have hx1 : min hi ((p : ℚ) + 1 / 2) - max lo ((p : ℚ) - 1 / 2) ≤ 1 := by
    have h1 : min hi ((p : ℚ) + 1 / 2) ≤ (p : ℚ) + 1 / 2 := min_le_right _ _
    have h2 : (p : ℚ) - 1 / 2 ≤ max lo ((p : ℚ) - 1 / 2) := le_max_right _ _
    linarith
  rw [min_eq_right (max_le (by norm_num) hx1)]
  rcases le_total ((p : ℚ) + 1 / 2) lo with hbl | hlb
  · have e1 : min hi ((p : ℚ) + 1 / 2) = (p : ℚ) + 1 / 2 :=
      min_eq_right (hbl.trans h)
    have e2 : min hi ((p : ℚ) - 1 / 2) = (p : ℚ) - 1 / 2 :=
      min_eq_right (by linarith)
    have e3 : max lo ((p : ℚ) - 1 / 2) = lo := max_eq_left (by linarith)
    have e4 : max lo ((p : ℚ) + 1 / 2) = lo := max_eq_left hbl
    rw [e1, e2, e3, e4, max_eq_left (by linarith : (p : ℚ) + 1 / 2 - lo ≤ 0)]
    ring
  · rcases le_total hi ((p : ℚ) - 1 / 2) with hha | hah
    · have e1 : min hi ((p : ℚ) + 1 / 2) = hi := min_eq_left (by linarith)
      have e2 : min hi ((p : ℚ) - 1 / 2) = hi := min_eq_left hha
      have e3 : max lo ((p : ℚ) - 1 / 2) = (p : ℚ) - 1 / 2 :=
        max_eq_right (h.trans hha)
      rw [e1, e2, e3, max_eq_right h,
        max_eq_left (by linarith : hi - ((p : ℚ) - 1 / 2) ≤ 0)]
      ring
    · have e2 : min hi ((p : ℚ) - 1 / 2) = (p : ℚ) - 1 / 2 := min_eq_right hah
      have hlomb : lo ≤ min hi ((p : ℚ) + 1 / 2) := le_min h hlb
      have hx0 : 0 ≤ min hi ((p : ℚ) + 1 / 2) - max lo ((p : ℚ) - 1 / 2) := by
        have hmx : max lo ((p : ℚ) - 1 / 2) ≤ min hi ((p : ℚ) + 1 / 2) :=
          max_le hlomb (le_min hah (by linarith))
        linarith
      rw [max_eq_right hx0, e2, max_eq_right hlomb]

set_option maxHeartbeats 1000000 in
/-- Telescoping: when the aperture `[lo, hi]` lies inside the spatial
extent `[-1/2, N - 1/2]` of the image, the partial-pixel weights over all
`N` spatial pixels sum to the aperture length `hi - lo`. -/
theorem sum_intervalWeight (lo hi : ℚ) (N : ℕ) (h : lo ≤ hi)
    (hlo : -(1 / 2) ≤ lo) (hhi : hi ≤ (N : ℚ) - 1 / 2) :
    ∑ p ∈ Finset.range N, intervalWeight lo hi p = hi - lo := by
  have hcong : ∀ p ∈ Finset.range N, intervalWeight lo hi p
      = (fun k : ℕ => clampTo lo hi ((k : ℚ) - 1 / 2)) (p + 1)
        - (fun k : ℕ => clampTo lo hi ((k : ℚ) - 1 / 2)) p := by
    intro p _
    have hcast : ((p + 1 : ℕ) : ℚ) - 1 / 2 = (p : ℚ) + 1 / 2 := by
      push_cast; ring
    simp only [hcast]
    exact intervalWeight_eq_clamp lo hi p h
  calc ∑ p ∈ Finset.range N, intervalWeight lo hi p
      = ∑ p ∈ Finset.range N,
          ((fun k : ℕ => clampTo lo hi ((k : ℚ) - 1 / 2)) (p + 1)
            - (fun k : ℕ => clampTo lo hi ((k : ℚ) - 1 / 2)) p) :=
        Finset.sum_congr rfl hcong
    _ = (fun k : ℕ => clampTo lo hi ((k : ℚ) - 1 / 2)) N
          - (fun k : ℕ => clampTo lo hi ((k : ℚ) - 1 / 2)) 0 :=
        Finset.sum_range_sub (fun k : ℕ => clampTo lo hi ((k : ℚ) - 1 / 2)) N
    _ = hi - lo := by
        show clampTo lo hi ((N : ℚ) - 1 / 2)
            - clampTo lo hi (((0 : ℕ) : ℚ) - 1 / 2) = hi - lo
        have hN : clampTo lo hi ((N : ℚ) - 1 / 2) = hi := by
          unfold clampTo
          rw [min_eq_left hhi, max_eq_right h]
        have h0 : clampTo lo hi (((0 : ℕ) : ℚ) - 1 / 2) = lo := by
          unfold clampTo
          have hz : (((0 : ℕ) : ℚ) - 1 / 2) = -(1 / 2) := by norm_num
          rw [hz, min_eq_right (le_trans hlo h), max_eq_left hlo]
        rw [hN, h0]

/-- Evaluation of the per-column peak on two-pixel columns. -/
theorem max_psf_two (img : Fin 2 → Fin n → ℚ) (j : Fin n) :
    max_psf img j = max (img 0 j) (img 1 j) := by
  apply le_antisymm
  · apply Finset.sup'_le
    intro p _
    fin_cases p
    · exact le_max_left _ _
    · exact le_max_right _ _
  · exact max_le (le_max_psf img 0 j) (le_max_psf img 1 j)

/-- Evaluation of the per-column peak on one-pixel columns. -/
theorem max_psf_one (img : Fin 1 → Fin n → ℚ) (j : Fin n) :
    max_psf img j = img 0 j := by
  apply le_antisymm
  · apply Finset.sup'_le
    intro p _
    fin_cases p
    exact le_rfl
  · exact le_max_psf img 0 j

/- ------------------------------------------------------------------
Claim theorems.
------------------------------------------------------------------- -/

/-- Claim C2: `normalize_psf_weights` computes the element-wise masked
image, takes the per-column peak of the masked image over the spatial
axis (it bounds every pixel of the column and is attained), divides every
column with nonzero peak by that peak, and leaves columns with zero peak
equal to the masked image unchanged. -/
theorem C2_normalize_psf_weights_spec (lrspsf wimage : Fin (m + 1) → Fin n → ℚ)
    (j : Fin n) :
    (∀ p, psf_weightimage lrspsf wimage p j
        = lrspsf p j * wimage p j) ∧
    (∀ p, psf_weightimage lrspsf wimage p j
        ≤ max_psf (psf_weightimage lrspsf wimage) j) ∧
    (∃ p, psf_weightimage lrspsf wimage p j
        = max_psf (psf_weightimage lrspsf wimage) j) ∧
    (max_psf (psf_weightimage lrspsf wimage) j ≠ 0 →
      ∀ p, normalize_psf_weights lrspsf wimage p j
        = psf_weightimage lrspsf wimage p j
            / max_psf (psf_weightimage lrspsf wimage) j) ∧
    (max_psf (psf_weightimage lrspsf wimage) j = 0 →
      ∀ p, normalize_psf_weights lrspsf wimage p j
        = psf_weightimage lrspsf wimage p j) := by
  refine ⟨fun p => rfl, fun p => le_max_psf _ p j, max_psf_exists _ j, ?_, ?_⟩
  · intro hne p
    show psf_weightimage lrspsf wimage p j
        / div_image (psf_weightimage lrspsf wimage) j = _
    rw [div_image, if_neg hne]
  · intro h0 p
    show psf_weightimage lrspsf wimage p j
        / div_image (psf_weightimage lrspsf wimage) j = _
    rw [div_image, if_pos h0, div_one]

/-- Witness for C2 on a concrete image whose single column has the
nonzero peak 2. -/
theorem C2_witness :
    (normalize_psf_weights psfPos maskOnes 0 0
      = psf_weightimage psfPos maskOnes 0 0
          / max_psf (psf_weightimage psfPos maskOnes) 0) ∧
      normalize_psf_weights psfZero maskOnesSmall 0 0
        = psf_weightimage psfZero maskOnesSmall 0 0 :=
  ⟨(C2_normalize_psf_weights_spec psfPos maskOnes 0).2.2.2.1
      (by simp [max_psf_two, psf_weightimage, psfPos, maskOnes]) 0,
    (C2_normalize_psf_weights_spec psfZero maskOnesSmall 0).2.2.2.2
      (by simp [max_psf_one, psf_weightimage, psfZero, maskOnesSmall]) 0⟩

/-- Counterexample for claim C6: a raw PSF column holding -1 and 0, fully
unmasked, has column peak 0, yet the normalizer returns the column
unchanged, so the pixel holding -1 stays -1 — the column is not all
zeros. -/
theorem C6_counterexample :
    max_psf (psf_weightimage psfNegPeakZero maskOnes) 0 = 0 ∧
      normalize_psf_weights psfNegPeakZero maskOnes 0 0 = -1 := by
  constructor
  · simp [max_psf_two, psf_weightimage, psfNegPeakZero, maskOnes]
  · simp [normalize_psf_weights, normalizeStep, div_image, max_psf_two,
      psf_weightimage, psfNegPeakZero, maskOnes]

/-- Claim C6 (amended): in every column whose peak is 0, the guarded
divisor is nonzero (no division error can occur) and the normalizer
returns the masked column unchanged; in particular the column is all
zeros whenever the masked image is nonnegative in that column. -/
theorem C6_zero_peak_no_division (lrspsf wimage : Fin (m + 1) → Fin n → ℚ)
    (j : Fin n) (h0 : max_psf (psf_weightimage lrspsf wimage) j = 0) :
    div_image (psf_weightimage lrspsf wimage) j ≠ 0 ∧
      (∀ p, normalize_psf_weights lrspsf wimage p j
        = psf_weightimage lrspsf wimage p j) ∧
      ((∀ p, 0 ≤ psf_weightimage lrspsf wimage p j) →
        ∀ p, normalize_psf_weights lrspsf wimage p j = 0) := by
  have hmain : ∀ p, normalize_psf_weights lrspsf wimage p j
      = psf_weightimage lrspsf wimage p j := by
    intro p
    show psf_weightimage lrspsf wimage p j
        / div_image (psf_weightimage lrspsf wimage) j = _
    rw [div_image, if_pos h0, div_one]
  refine ⟨div_image_ne_zero _ j, hmain, fun hpos p => ?_⟩
  rw [hmain p]
  exact le_antisymm (h0 ▸ le_max_psf _ p j) (hpos p)

/-- Witness for the amended C6 on the all-zero image: the peak is 0, the
divisor is nonzero, and the output column is zero. -/
theorem C6_witness :
    div_image (psf_weightimage psfZero maskOnesSmall) 0 ≠ 0 ∧
      (∀ p, normalize_psf_weights psfZero maskOnesSmall p 0
        = psf_weightimage psfZero maskOnesSmall p 0) ∧
      ((∀ p, 0 ≤ psf_weightimage psfZero maskOnesSmall p 0) →
        ∀ p, normalize_psf_weights psfZero maskOnesSmall p 0 = 0) :=
  C6_zero_peak_no_division psfZero maskOnesSmall 0
    (by simp [max_psf_one, psf_weightimage, psfZero, maskOnesSmall])

/-- Counterexample for claim C7: a fully unmasked raw PSF column holding
-2 and -1 has the nonzero peak -1, and normalization by that negative
peak yields the value 2 > 1 + epsilon at the first pixel. -/
theorem C7_counterexample :
    max_psf (psf_weightimage psfAllNeg maskOnes) 0 ≠ 0 ∧
      normalize_psf_weights psfAllNeg maskOnes 0 0 = 2 := by
  constructor
  · simp [max_psf_two, psf_weightimage, psfAllNeg, maskOnes]
  · simp [normalize_psf_weights, normalizeStep, div_image, max_psf_two,
      psf_weightimage, psfAllNeg, maskOnes]

/-- Claim C7 (amended): the output of `normalize_psf_weights` is at most
1 at every pixel of every column whose peak is positive, and is exactly 0
at every pixel of every column that was entirely masked out. -/
theorem C7_output_bounds (lrspsf wimage : Fin (m + 1) → Fin n → ℚ)
    (j : Fin n) :
    (0 < max_psf (psf_weightimage lrspsf wimage) j →
      ∀ p, normalize_psf_weights lrspsf wimage p j ≤ 1) ∧
      ((∀ p, wimage p j = 0) →
        ∀ p, normalize_psf_weights lrspsf wimage p j = 0) := by
  constructor
  · intro hpos p
    show psf_weightimage lrspsf wimage p j
        / div_image (psf_weightimage lrspsf wimage) j ≤ 1
    rw [div_image, if_neg hpos.ne']
    rw [div_le_one hpos]
    exact le_max_psf _ p j
  · intro hmask p
    have hcol : ∀ q, psf_weightimage lrspsf wimage q j = 0 := by
      intro q
      show lrspsf q j * wimage q j = 0
      rw [hmask q, mul_zero]
    show psf_weightimage lrspsf wimage p j
        / div_image (psf_weightimage lrspsf wimage) j = 0
    rw [hcol p, zero_div]

/-- Witness for the amended C7: a column with positive peak 2 yields
output at most 1, and the all-zero mask yields output exactly 0. -/
theorem C7_witness :
    normalize_psf_weights psfPos maskOnes 0 0 ≤ 1 ∧
      normalize_psf_weights psfPos maskZeros 1 0 = 0 :=
  ⟨(C7_output_bounds psfPos maskOnes 0).1
      (by simp [max_psf_two, psf_weightimage, psfPos, maskOnes]) 0,
    (C7_output_bounds psfPos maskZeros 0).2 (fun p => rfl) 1⟩

/-- Claim C9: at every pixel where the mask weight is 0 the normalized
PSF weight is 0 — the per-column normalization never introduces nonzero
weight at a masked-out pixel. -/
theorem C9_masked_pixel_stays_zero (lrspsf wimage : Fin (m + 1) → Fin n → ℚ)
    (p : Fin (m + 1)) (j : Fin n) (h : wimage p j = 0) :
    normalize_psf_weights lrspsf wimage p j = 0 := by
  show psf_weightimage lrspsf wimage p j
      / div_image (psf_weightimage lrspsf wimage) j = 0
  have hz : psf_weightimage lrspsf wimage p j = 0 := by
    show lrspsf p j * wimage p j = 0
    rw [h, mul_zero]
  rw [hz, zero_div]

/-- Witness for C9: pixel 1 of the positive test image is masked out by
the zero mask and its normalized weight is 0. -/
theorem C9_witness : normalize_psf_weights psfPos maskZeros 1 0 = 0 :=
  C9_masked_pixel_stays_zero psfPos maskZeros 1 0 rfl

/-- Counterexample for claim C10: on the masked image whose single column
holds -2 and -1 the normalization step is not idempotent — the first
application yields the column (2, 1), the second divides by the new peak
2 and yields (1, 1/2). -/
theorem C10_counterexample :
    normalizeStep (normalizeStep imgAllNeg) 0 0 ≠ normalizeStep imgAllNeg 0 0 := by
  have h1 : normalizeStep imgAllNeg 0 0 = 2 := by
    simp [normalizeStep, div_image, max_psf_two, imgAllNeg]
  have h2 : normalizeStep (normalizeStep imgAllNeg) 0 0 = 1 := by
    simp [normalizeStep, div_image, max_psf_two, imgAllNeg]
  rw [h1, h2]
  norm_num

/-- Claim C10 (amended): the per-column peak normalization step is
idempotent on every nonnegative masked PSF image — after the first
application every column with nonzero peak has peak exactly 1, so the
second application changes nothing. -/
theorem C10_normalizeStep_idempotent (img : Fin (m + 1) → Fin n → ℚ)
    (hpos : ∀ p j, 0 ≤ img p j) (p : Fin (m + 1)) (j : Fin n) :
    normalizeStep (normalizeStep img) p j = normalizeStep img p j := by
  have hs0 : 0 ≤ max_psf img j := (hpos 0 j).trans (le_max_psf img 0 j)
  rcases hs0.eq_or_lt with h0 | hposk
  · have hcol : ∀ q, img q j = 0 := by
      intro q
      have hq := le_max_psf img q j
      rw [← h0] at hq
      exact le_antisymm hq (hpos q j)
    have hstep : ∀ q, normalizeStep img q j = 0 := by
      intro q
      show img q j / div_image img j = 0
      rw [hcol q, zero_div]
    show normalizeStep img p j / div_image (normalizeStep img) j = _
    rw [hstep p, zero_div]
  · have h1 : max_psf (normalizeStep img) j = 1 :=
      max_psf_normalizeStep img j hposk
    show normalizeStep img p j / div_image (normalizeStep img) j = _
    rw [div_image, h1]
    norm_num

/-- Witness for the amended C10 on a concrete nonnegative image. -/
theorem C10_witness :
    normalizeStep (normalizeStep imgNonneg) 0 0 = normalizeStep imgNonneg 0 0 :=
  C10_normalizeStep_idempotent imgNonneg
    (by
      intro p j
      unfold imgNonneg
      split_ifs <;> norm_num) 0 0

/-- Claim C3: for a valid geometry (width > 0) whose signal aperture lies
fully inside the spatial bounds of the image, the signal weight column
sums exactly to `min width n_spatial` (here the in-bounds aperture has
width at most `n_spatial`, so the sum is `width` itself), each pixel
contributing the fractional overlap of its unit interval with the
aperture, clipped to [0,1]. -/
theorem C3_signal_weight_column_sum (center width : ℚ) (waves : Fin n → ℚ)
    (j : Fin n) (hw : 0 < width)
    (hlo : -(1 / 2) ≤ center - width / 2)
    (hhi : center + width / 2 ≤ ((m + 1 : ℕ) : ℚ) - 1 / 2) :
    ∑ p : Fin (m + 1), signal_weights center width waves none p j
      = min width ((m + 1 : ℕ) : ℚ) := by
  have hlh : center - width / 2 ≤ center + width / 2 := by linarith
  calc ∑ p : Fin (m + 1), signal_weights center width waves none p j
      = ∑ p ∈ Finset.range (m + 1),
          intervalWeight (center - width / 2) (center + width / 2) p :=
        Fin.sum_univ_eq_sum_range
          (fun k => intervalWeight (center - width / 2) (center + width / 2) k)
          (m + 1)
    _ = (center + width / 2) - (center - width / 2) :=
        sum_intervalWeight _ _ _ hlh hlo hhi
    _ = width := by ring
    _ = min width ((m + 1 : ℕ) : ℚ) := by
        rw [min_eq_left (by linarith : width ≤ ((m + 1 : ℕ) : ℚ))]

/-- Witness for C3: a 10-pixel spatial axis with the aperture [3, 7]
(center 5, width 4) fully in bounds sums to min 4 10 = 4. -/
theorem C3_witness :
    ∑ p : Fin (9 + 1), signal_weights 5 4 wavesConst none p 0
      = min (4 : ℚ) ((9 + 1 : ℕ) : ℚ) :=
  C3_signal_weight_column_sum 5 4 wavesConst 0 (by norm_num) (by norm_num)
    (by norm_num)

theorem bkg_raw_nonneg (center bkgOffset bkgWidth : ℚ) (p : Fin (m + 1))
    (j : Fin n) : 0 ≤ bkg_raw center bkgOffset bkgWidth p j :=
  add_nonneg (intervalWeight_nonneg _ _ _) (intervalWeight_nonneg _ _ _)

/-- Claim C4: with background requested (`bkg_offset` and `bkg_width`
supplied, `bkg_width > 0`), every background weight column produced by
the Aperture Mask Builder sums to 1 whenever some background pixel is
in-bounds for that column (its unnormalized weight is nonzero), and sums
to 0 when no background pixel is in-bounds. -/
theorem C4_bkg_weight_column_sums (center width bkgOffset bkgWidth : ℚ)
    (waves : Fin n → ℚ) (wavescale : Option ℚ) (hbw : 0 < bkgWidth)
    (j : Fin n) :
    ((∃ p : Fin (m + 1), bkg_raw center bkgOffset bkgWidth p j ≠ 0) →
      ∑ p : Fin (m + 1),
        (ap_weight_images center width (some bkgOffset) (some bkgWidth)
          waves wavescale).2 p j = 1) ∧
    ((∀ p : Fin (m + 1), bkg_raw center bkgOffset bkgWidth p j = 0) →
      ∑ p : Fin (m + 1),
        (ap_weight_images center width (some bkgOffset) (some bkgWidth)
          waves wavescale).2 p j = 0) := by
  have hap : (ap_weight_images center width (some bkgOffset) (some bkgWidth)
      waves wavescale).2 = @bkg_weights m n center bkgOffset bkgWidth := by
    show (if 0 < bkgWidth then bkg_weights center bkgOffset bkgWidth
        else fun _ _ => 0) = _
    rw [if_pos hbw]
  constructor
  · rintro ⟨p0, hp0⟩
    have hsne : (∑ q : Fin (m + 1), bkg_raw center bkgOffset bkgWidth q j) ≠ 0 := by
      intro hzero
      exact hp0 ((Finset.sum_eq_zero_iff_of_nonneg
        (fun i _ => bkg_raw_nonneg center bkgOffset bkgWidth i j)).1 hzero
          p0 (Finset.mem_univ p0))
    rw [hap]
    calc ∑ p : Fin (m + 1), bkg_weights center bkgOffset bkgWidth p j
        = ∑ p : Fin (m + 1), bkg_raw center bkgOffset bkgWidth p j /
            ∑ q : Fin (m + 1), bkg_raw center bkgOffset bkgWidth q j := by
          refine Finset.sum_congr rfl (fun p _ => ?_)
          show (if (∑ q : Fin (m + 1), bkg_raw center bkgOffset bkgWidth q j)
              = 0 then bkg_raw center bkgOffset bkgWidth p j
            else bkg_raw center bkgOffset bkgWidth p j /
              ∑ q : Fin (m + 1), bkg_raw center bkgOffset bkgWidth q j) = _
          rw [if_neg hsne]
      _ = (∑ p : Fin (m + 1), bkg_raw center bkgOffset bkgWidth p j) /
            ∑ q : Fin (m + 1), bkg_raw center bkgOffset bkgWidth q j :=
          (Finset.sum_div _ _ _).symm
      _ = 1 := div_self hsne
  · intro hall
    have hzero : (∑ q : Fin (m + 1), bkg_raw center bkgOffset bkgWidth q j) = 0 :=
      Finset.sum_eq_zero (fun q _ => hall q)
    rw [hap]
    refine Finset.sum_eq_zero (fun p _ => ?_)
    show (if (∑ q : Fin (m + 1), bkg_raw center bkgOffset bkgWidth q j) = 0
        then bkg_raw center bkgOffset bkgWidth p j
      else bkg_raw center bkgOffset bkgWidth p j /
        ∑ q : Fin (m + 1), bkg_raw center bkgOffset bkgWidth q j) = 0
    rw [if_pos hzero]
    exact hall p

/-- Witness for C4: center 2, background offset 1 and width 2 put pixel 0
of a one-pixel spatial axis inside the lower band, so the normalized
background column sums to 1; with offset 10 both bands are fully out of
bounds and the column sums to 0. -/
theorem C4_witness :
    (∑ p : Fin 1,
      (ap_weight_images 2 4 (some 1) (some 2) wavesConst none).2 p 0 = 1) ∧
      ∑ p : Fin 1,
        (ap_weight_images 2 4 (some 10) (some 2) wavesConst none).2 p 0 = 0 :=
  ⟨(C4_bkg_weight_column_sums 2 4 1 2 wavesConst none (by norm_num) 0).1
      ⟨0, by norm_num [bkg_raw, intervalWeight]⟩,
    (C4_bkg_weight_column_sums 2 4 10 2 wavesConst none (by norm_num) 0).2
      (fun p => by
        fin_cases p
        norm_num [bkg_raw, intervalWeight])⟩

/-- Claim C5: calling `extract_1dspec` with no background parameters
returns a corrected image exactly equal to the input image, and the
background level of the (all-zero) background weight image is the zero
vector — background subtraction is a no-op. -/
theorem C5_no_background_identity (image : Fin (m + 1) → Fin n → ℚ)
    (waves : Fin n → ℚ) (center width : ℚ) (wavescale : Option ℚ) :
    (extract_1dspec image waves center width none none wavescale).2.2 = image ∧
      ∀ j, bkg_level image
        (ap_weight_images center width none none waves wavescale).2 j = 0 := by
  have hb : ∀ j, bkg_level image
      (ap_weight_images center width none none waves wavescale).2 j = 0 := by
    intro j
    have hzero : (@ap_weight_images m n center width none none waves wavescale).2
        = fun _ _ => (0 : ℚ) := rfl
    unfold bkg_level
    rw [hzero]
    simp
  constructor
  · funext p j
    show image p j - bkg_level image
        (ap_weight_images center width none none waves wavescale).2 j = image p j
    rw [hb j, sub_zero]
  · exact hb

/-- Claim C8: with `wavescale` set, the effective half-width for a column
of wavelength `w` is `(width/2) * (w / wavescale)` — the wavescale value
itself is the reference wavelength — and for a positive width and
positive reference the half-width is monotone in the wavelength, so a
monotonic wavelength map gives a monotonic (same direction) aperture
width across dispersion columns. -/
theorem C8_wavescale_monotone (width wscale : ℚ) (waves : Fin n → ℚ)
    (hw : 0 < width) (hws : 0 < wscale) :
    (∀ w : ℚ, halfWidth width (some wscale) w = width / 2 * (w / wscale)) ∧
      ∀ j k : Fin n, waves j ≤ waves k →
        halfWidth width (some wscale) (waves j)
          ≤ halfWidth width (some wscale) (waves k) := by
  refine ⟨fun w => rfl, fun j k hjk => ?_⟩
  show width / 2 * (waves j / wscale) ≤ width / 2 * (waves k / wscale)
  have hnn : 0 ≤ width / 2 := by positivity
  exact mul_le_mul_of_nonneg_left ((div_le_div_iff_of_pos_right hws).2 hjk) hnn

/-- Witness for C8: width 4, wavescale 10, and the two-column wavelength
map 0, 1 — the half-width at the first column is at most that at the
second. -/
theorem C8_witness :
    halfWidth 4 (some 10) (wavesId 0) ≤ halfWidth 4 (some 10) (wavesId 1) :=
  (C8_wavescale_monotone 4 10 wavesId (by norm_num) (by norm_num)).2 0 1
    (by simp [wavesId])

/-- Claim C1: the Spectral Reducer's flux at column j is the sum over
spatial pixels of the corrected image times the signal weights, the
output wavelengths are the input wavelength map unchanged and
index-aligned, and on the PSF-weighted path the photometric conversion
(`1e6 * pixelarea`) multiplies the reducer's weighted sum as a separate
post-step, not inside the reducer. -/
theorem C1_reducer_contract (image : Fin (m + 1) → Fin n → ℚ)
    (waves : Fin n → ℚ) (center width : ℚ)
    (bkgOffset bkgWidth wavescale : Option ℚ)
    (corrected psfw : Fin (m + 1) → Fin n → ℚ) (pixelarea : ℚ) :
    (∀ j, (extract_1dspec image waves center width bkgOffset bkgWidth
          wavescale).2.1 j
        = ∑ p, (extract_1dspec image waves center width bkgOffset bkgWidth
            wavescale).2.2 p j *
          (ap_weight_images center width bkgOffset bkgWidth waves
            wavescale).1 p j) ∧
      (extract_1dspec image waves center width bkgOffset bkgWidth
        wavescale).1 = waves ∧
      (∀ j, ext1d_psfweight corrected psfw j = ∑ p, corrected p j * psfw p j) ∧
      (∀ j, ext1d_psfweight_cal corrected psfw pixelarea j
          = ext1d_psfweight corrected psfw j * (1000000 * pixelarea)) :=
  ⟨fun _ => rfl, rfl, fun _ => rfl, fun _ => rfl⟩
